import Mathlib

/-!
# Verification of the `config` file-resolution and line-parsing pipeline

This file gives a shallow embedding, in Lean 4, of the Go sources in
`src/read.go` (the package `config`): the worklist-based file resolver
(`fileList.pushFile`, `_read`, `_readFile`) and the line-oriented parser
(`Config.read`).  The source contains two variants of the resolver: the
directive-aware variant (fields `Path`, `Required`, `Read`; directives
`#include` and `#require`) and the glob-aware variant (fields `Path`, `Read`;
directive `#include` with `*`/`?` glob expansion).  Both are embedded below;
the directive-aware one is the primary model, and the glob-aware candidate
loop is embedded separately as `pushFileG`.

Strings are modelled as `List Char` (Go strings are byte/rune sequences; all
slicing done by the source happens at ASCII rune boundaries, so the models
agree).  The filesystem is modelled as a finite association list from paths
to line lists; the working directory is an explicit parameter `cwd`
(`os.Getwd`); glob expansion is an explicit function parameter.
-/

/-- Go strings, modelled as lists of characters. -/
abbrev Str := List Char

/-- Shorthand turning a Lean string literal into a `Str`. -/
def mkStr (s : String) : Str := s.data

/-! ## Lexical path arithmetic (`path/filepath`, Unix rules)

`filepath.IsAbs`, `filepath.Clean`, `filepath.Dir`, `filepath.Join` and
`filepath.Abs` as used by `pushFile`.  `Clean` is the standard lexical
algorithm: split on `/`, drop empty and `.` elements, resolve `..` against
the accumulated output (dropping it at the root, keeping it for relative
paths that climb out). -/

/-- `filepath.IsAbs` on Unix: the path starts with a slash. -/
def isAbs : Str → Bool
  | '/' :: _ => true
  | _ => false

/-- Split a path into its `/`-separated elements. -/
def splitSlash : Str → List Str
  | [] => [[]]
  | c :: rest =>
    let r := splitSlash rest
    if c = '/' then [] :: r
    else
      match r with
      | [] => [[c]]
      | s :: ss => (c :: s) :: ss

/-- The element-processing loop of `filepath.Clean` (accumulator is kept
reversed). -/
def cleanAux (rooted : Bool) : List Str → List Str → List Str
  | acc, [] => acc.reverse
  | acc, seg :: rest =>
    if seg = [] ∨ seg = ['.'] then cleanAux rooted acc rest
    else if seg = ['.', '.'] then
      match acc with
      | [] => if rooted then cleanAux rooted [] rest else cleanAux rooted [['.', '.']] rest
      | _ :: as =>
        if ¬rooted ∧ acc.head? = some ['.', '.'] then cleanAux rooted (seg :: acc) rest
        else cleanAux rooted as rest
    else cleanAux rooted (seg :: acc) rest

/-- Re-join cleaned path elements with `/`. -/
def joinSegs : List Str → Str
  | [] => []
  | [s] => s
  | s :: rest => s ++ '/' :: joinSegs rest

/-- `filepath.Clean` (Unix). -/
def clean (p : Str) : Str :=
  if p = [] then ['.']
  else
    let rooted := isAbs p
    let out := cleanAux rooted [] (splitSlash p)
    if rooted then '/' :: joinSegs out
    else if out = [] then ['.'] else joinSegs out

/-- `filepath.Dir` (Unix): everything up to and including the final slash,
cleaned; `"."` when the path has no slash. -/
def dirP (p : Str) : Str :=
  clean ((p.reverse.dropWhile (fun c => ¬c = '/')).reverse)

/-- `filepath.Join` restricted to the two arguments the source uses: empty
elements are ignored and the result is cleaned. -/
def joinP (a b : Str) : Str :=
  if a = [] ∧ b = [] then []
  else if a = [] then clean b
  else if b = [] then clean a
  else clean (a ++ '/' :: b)

/-- `filepath.Abs`: absolute paths are cleaned, relative ones are joined to
the working directory (`os.Getwd` is the explicit parameter `cwd`). -/
def fAbs (cwd p : Str) : Str :=
  if isAbs p then clean p else joinP cwd p

/-! ## The directive-aware worklist (`configFile`, `fileList.pushFile`) -/

/-- `configFile`: a file which should be read (directive-aware variant). -/
structure ConfigFile where
  Path : Str
  Required : Bool
  Read : Bool
deriving DecidableEq, Repr

/-- `fileList.pushFile`: convert `path` into an absolute path (relative paths
are resolved against the directory of the first file in the list, or against
the working directory when the list is empty) and append a new unread entry
unless an entry with the same absolute path is already present. -/
def pushFile (cwd : Str) (list : List ConfigFile) (path : Str) (required : Bool) :
    List ConfigFile :=
  let absPath :=
    if isAbs path then path
    else
      let relPath :=
        match list with
        | [] => path
        | f0 :: _ => joinP (dirP f0.Path) path
      fAbs cwd relPath
  if list.any (fun f => f.Path = absPath) then list
  else list ++ [{ Path := absPath, Required := required, Read := false }]

/-- The paths of the worklist entries, in order. -/
def pathsOf (l : List ConfigFile) : List Str := l.map (·.Path)

/-! ## Character classes and trimming (`unicode.IsSpace`, regexp `\s`) -/

/-- `unicode.IsSpace`: White_Space code points. -/
def isSpaceGo (c : Char) : Bool :=
  decide (c = ' ' ∨ c = '\t' ∨ c = '\n' ∨ c.val = 0x0B ∨ c.val = 0x0C ∨ c = '\r' ∨
    c.val = 0x85 ∨ c.val = 0xA0 ∨ c.val = 0x1680 ∨
    (0x2000 ≤ c.val ∧ c.val ≤ 0x200A) ∨
    c.val = 0x2028 ∨ c.val = 0x2029 ∨ c.val = 0x202F ∨ c.val = 0x205F ∨ c.val = 0x3000)

/-- The Go `regexp` class `\s`, i.e. `[\t\n\f\r ]`. -/
def isSpaceRe (c : Char) : Bool :=
  decide (c = ' ' ∨ c = '\t' ∨ c = '\n' ∨ c.val = 0x0C ∨ c = '\r')

/-- `strings.TrimRightFunc(l, unicode.IsSpace)`. -/
def trimRight (l : Str) : Str := (l.reverse.dropWhile isSpaceGo).reverse

/-- `strings.TrimSpace`. -/
def trimSpace (l : Str) : Str := trimRight (l.dropWhile isSpaceGo)

/-- Dropping a trailing run of regexp whitespace (the `\s*$` suffix of the
directive patterns). -/
def trimRightRe (l : Str) : Str := (l.reverse.dropWhile isSpaceRe).reverse

/-- `strings.IndexAny(l, "=:")`: index of the first `=` or `:`, `-1` when
absent.  (Go returns a byte index; the first `=`/`:` sits after ASCII-clean
prefix positions in exactly the places the source slices, so the rune index
used here slices identically.) -/
def indexAny : Str → Int
  | [] => -1
  | c :: rest =>
    if c = '=' ∨ c = ':' then 0
    else
      match indexAny rest with
      | .negSucc _ => -1
      | .ofNat i => (i : Int) + 1

deriving instance DecidableEq for Except

/-! ## The Store (`Config`'s section/option maps)

The Store itself lives outside `src/`; the parser only uses the contract the
spec states in section 6. -/

/-- Modelled from the spec: the in-memory Store (the `Config` section/option
maps are not under `src/`; only their callers are).  Sections are an ordered
association list from section name to an ordered association list of
options. -/
structure Config where
  data : List (Str × List (Str × Str))
deriving DecidableEq, Repr

/-- Modelled from the spec: `addSection(name)` — idempotent, ensures the
section exists. -/
def Config.AddSection (c : Config) (sec : Str) : Config :=
  if c.data.any (fun p => p.1 = sec) then c else ⟨c.data ++ [(sec, [])]⟩

/-- Upsert of one option inside a section's option list. -/
def upsertOpt (opts : List (Str × Str)) (o v : Str) : List (Str × Str) :=
  match opts with
  | [] => [(o, v)]
  | (o', v') :: rest => if o' = o then (o, v) :: rest else (o', v') :: upsertOpt rest o v

/-- Modelled from the spec: `addOption(section, option, value)` — idempotent
upsert, overwriting an existing value; ensures the section exists. -/
def Config.AddOption (c : Config) (sec o v : Str) : Config :=
  let c' := c.AddSection sec
  ⟨c'.data.map (fun p => if p.1 = sec then (p.1, upsertOpt p.2 o v) else p)⟩

/-- Modelled from the spec: `getRawOption(section, option)` — the current raw
value, when it exists. -/
def Config.RawString (c : Config) (sec o : Str) : Option Str :=
  match c.data.find? (fun p => p.1 = sec) with
  | none => none
  | some p => (p.2.find? (fun q => q.1 = o)).map (·.2)

/-! ## The line parser (`Config.read`) -/

/-- Read error values: `os.Open` failures and `errors.New("could not parse
line: " + l)`. -/
inductive ReadErr where
  | openFail (path : Str)
  | parseFail (msg : Str)
deriving DecidableEq, Repr

/-- The literal `#include` (keyword of `reIncludeFile`). -/
def kwInclude : Str := ['#', 'i', 'n', 'c', 'l', 'u', 'd', 'e']

/-- The literal `#require` (keyword of `reRequireFile`). -/
def kwRequire : Str := ['#', 'r', 'e', 'q', 'u', 'i', 'r', 'e']

/-- Strip a literal keyword from the front of a line, returning the rest. -/
def dropKw : Str → Str → Option Str
  | [], l => some l
  | _ :: _, [] => none
  | k :: ks, c :: cs => if k = c then dropKw ks cs else none

/-- The directive patterns `^#include\s+(.+?)\s*$` and
`^#require\s+(.+?)\s*$`: the keyword, at least one `\s`, then the capture —
which, by the non-greedy group against `\s*$`, is the remainder without its
trailing `\s` run and must be nonempty. -/
def matchDirective (kw l : Str) : Option Str :=
  match dropKw kw l with
  | none => none
  | some rest =>
    let body := rest.dropWhile isSpaceRe
    if body.length < rest.length ∧ body ≠ [] then some (trimRightRe body) else none

/-- Modelled from the spec: `stripComments` is code of this repository that is
not under `src/` (only its caller `Config.read` is).  Per the spec, inline
comments are introduced by `;` or `#` (section 6) while a `#` opening the
line survives as a directive (section 4.2), and `a=1 ; comment` loses its
comment (section 8): a marker takes effect when preceded by a space or tab.
The text is cut at the first occurrence of each of `" ;"`, `"\t;"`, `" #"`,
`"\t#"` in turn. -/
def indexOfSub : Str → Str → Option Nat
  | _, [] => some 0
  | [], _ :: _ => none
  | c :: rest, p :: ps =>
    if (p :: ps).isPrefixOf (c :: rest) then some 0
    else (indexOfSub rest (p :: ps)).map (· + 1)

/-- Cut a line at the first occurrence of a pattern, when present. -/
def cutAt (l pat : Str) : Str :=
  match indexOfSub l pat with
  | some i => l.take i
  | none => l

/-- Modelled from the spec: see `indexOfSub`'s comment — comment markers `;`
and `#` preceded by a space or tab start a discarded comment. -/
def stripComments (l : Str) : Str :=
  cutAt (cutAt (cutAt (cutAt l [' ', ';']) ['\t', ';']) [' ', '#']) ['\t', '#']

/-- The per-file parser state: the `section` and `option` locals of
`Config.read`, the Store, and the worklist the directives push into. -/
structure RState where
  sec : Str
  opt : Str
  store : Config
  files : List ConfigFile
deriving DecidableEq, Repr

/-- The error message of the default branch. -/
def parseMsg (l : Str) : Str := mkStr "could not parse line: " ++ l

/-- The body of `Config.read`'s per-line switch, applied to the already
stripped and right-trimmed line `l`. -/
def processCleanLine (cwd : Str) (st : RState) (l : Str) : Except ReadErr RState :=
  match l with
  | [] => .ok st
  | c :: _ =>
    if c = ';' then .ok st
    else if c = '#' then
      match matchDirective kwInclude l with
      | some p => .ok { st with files := pushFile cwd st.files p false }
      | none =>
        match matchDirective kwRequire l with
        | some p => .ok { st with files := pushFile cwd st.files p true }
        | none => .ok st
    else if c = '[' ∧ l.getLast? = some ']' then
      let name := trimSpace (l.drop 1).dropLast
      .ok { st with opt := [], sec := name, store := st.store.AddSection name }
    else if st.sec ≠ [] ∧ st.opt ≠ [] ∧ (c = ' ' ∨ c = '\t') then
      let prev := (st.store.RawString st.sec st.opt).getD []
      let value := trimSpace l
      .ok { st with store := st.store.AddOption st.sec st.opt (prev ++ '\n' :: value) }
    else
      let i := indexAny l
      if 0 < i ∧ c ≠ ' ' ∧ c ≠ '\t' then
        let o := trimSpace (l.take i.toNat)
        let v := trimSpace (l.drop (i.toNat + 1))
        .ok { st with opt := o, store := st.store.AddOption st.sec o v }
      else .error (.parseFail (parseMsg l))

/-- One iteration of `Config.read`'s scanner loop on a raw line. -/
def processLine (cwd : Str) (st : RState) (raw : Str) : Except ReadErr RState :=
  processCleanLine cwd st (trimRight (stripComments raw))

/-- `Config.read`: the scanner loop over a file's lines. -/
def readLines (cwd : Str) : RState → List Str → Except ReadErr RState
  | st, [] => .ok st
  | st, raw :: rest =>
    match processLine cwd st raw with
    | .error e => .error e
    | .ok st' => readLines cwd st' rest

/-! ## The driver (`_readFile`, `_read`) -/

/-- The filesystem: a finite association from paths to file lines.
`os.Open` succeeds exactly on the listed paths. -/
abbrev Fs := List (Str × List Str)

/-- Look a path up in the filesystem. -/
def fsLookup (fs : Fs) (fname : Str) : Option (List Str) :=
  (fs.find? (fun pr => pr.1 = fname)).map (·.2)

/-- `_readFile` (directive-aware variant): open the file — a failed open is
an error only for a required file — then run `Config.read` on its content
with a fresh section/option state. -/
def _readFile (cwd : Str) (fs : Fs) (fname : Str) (require : Bool) (store : Config)
    (files : List ConfigFile) : Except ReadErr (Config × List ConfigFile) :=
  match fsLookup fs fname with
  | none => if require then .error (.openFail fname) else .ok (store, files)
  | some lines =>
    match readLines cwd { sec := [], opt := [], store := store, files := files } lines with
    | .error e => .error e
    | .ok st => .ok (st.store, st.files)

/-- Mark the worklist entry at an index as read (`file.Read = true`). -/
def setRead : List ConfigFile → Nat → List ConfigFile
  | [], _ => []
  | f :: rest, 0 => { f with Read := true } :: rest
  | f :: rest, k + 1 => f :: setRead rest k

/-- The inner pass of `_read`: walk the `n` entries the worklist had when the
pass started (`range *list` captures the slice once), reading and marking
every unread one; `hu` is `hasUnread`. -/
def passGo (cwd : Str) (fs : Fs) :
    Nat → Nat → Config → List ConfigFile → Bool →
    Except ReadErr (Config × List ConfigFile × Bool)
  | 0, _, store, files, hu => .ok (store, files, hu)
  | m + 1, k, store, files, hu =>
    match files.get? k with
    | none => passGo cwd fs m (k + 1) store files hu
    | some f =>
      if f.Read then passGo cwd fs m (k + 1) store files hu
      else
        match _readFile cwd fs f.Path f.Required store files with
        | .error e => .error e
        | .ok (store', files') => passGo cwd fs m (k + 1) store' (setRead files' k) true

/-- One pass of `_read`'s outer loop over the current worklist. -/
def drainPass (cwd : Str) (fs : Fs) (store : Config) (files : List ConfigFile) :
    Except ReadErr (Config × List ConfigFile × Bool) :=
  passGo cwd fs files.length 0 store files false

/-- `_read`: repeat `drainPass` until a pass finds nothing unread.  The
repetition is fuelled; `.ok none` means the fuel ran out before the loop
exited — the termination theorem shows enough fuel always exists. -/
def _readFuel (cwd : Str) (fs : Fs) :
    Nat → Config → List ConfigFile → Except ReadErr (Option (Config × List ConfigFile))
  | 0, _, _ => .ok none
  | n + 1, store, files =>
    match drainPass cwd fs store files with
    | .error e => .error e
    | .ok (store', files', hu) =>
      if hu then _readFuel cwd fs n store' files' else .ok (some (store', files'))

/-! ## The glob-aware variant (`configFile`/`pushFile` without `Required`) -/

/-- `configFile` of the glob-aware variant. -/
structure ConfigFileG where
  Path : Str
  Read : Bool
deriving DecidableEq, Repr

/-- The regexp `[\*\?]`: the path contains a glob metacharacter. -/
def hasGlobMeta (p : Str) : Bool := p.any (fun c => c == '*' || c == '?')

/-- The candidate loop of the glob-aware `pushFile`: for each candidate, scan
the list for the same absolute path — the source executes `return nil` there,
leaving the remaining candidates unprocessed — otherwise append a new unread
entry. -/
def pushCandidates (list : List ConfigFileG) : List Str → List ConfigFileG
  | [] => list
  | c :: rest =>
    if list.any (fun f => f.Path = c) then list
    else pushCandidates (list ++ [{ Path := c, Read := false }]) rest

/-- The glob-aware `fileList.pushFile`: resolve to an absolute path the same
way as the directive-aware variant, expand to candidates — `filepath.Glob`
results are the explicit function `glob` — and run the candidate loop. -/
def pushFileG (cwd : Str) (glob : Str → List Str) (list : List ConfigFileG) (path : Str) :
    List ConfigFileG :=
  let absPath :=
    if isAbs path then path
    else
      let relPath :=
        match list with
        | [] => path
        | f0 :: _ => joinP (dirP f0.Path) path
      fAbs cwd relPath
  let candidates := if hasGlobMeta absPath then glob absPath else [absPath]
  pushCandidates list candidates

/-! ## Specification vocabulary used by the theorems -/

/-- The directive possibly pushed by one already-stripped line: the `#include`
path (not required) or the `#require` path (required), tried in the source's
order. -/
def cleanLineDirective (l : Str) : Option (Str × Bool) :=
  match matchDirective kwInclude l with
  | some p => some (p, false)
  | none =>
    match matchDirective kwRequire l with
    | some p => some (p, true)
    | none => none

/-- The directive possibly pushed by one raw line. -/
def lineDirective (raw : Str) : Option (Str × Bool) :=
  cleanLineDirective (trimRight (stripComments raw))

/-- Every path a directive of some file of the filesystem can push. -/
def allDirs (fs : Fs) : List Str :=
  fs.flatMap (fun pr => pr.2.filterMap (fun raw => (lineDirective raw).map (·.1)))

/-- The canonical absolute form `pushFile` gives a path once the root entry's
directory is `d`. -/
def canonR (cwd d p : Str) : Str :=
  if isAbs p then p else fAbs cwd (joinP d p)

/-- How many worklist entries are already read. -/
def readCount (l : List ConfigFile) : Nat := l.countP (·.Read)

/-- The worklist facts `_read`'s pass preserves: entries are never removed or
reordered, their path and required flag never change, and the read flag only
ever goes from `false` to `true`. -/
def FilePres (l l' : List ConfigFile) : Prop :=
  l.length ≤ l'.length ∧
  ∀ i a, l.get? i = some a →
    ∃ b, l'.get? i = some b ∧ b.Path = a.Path ∧ b.Required = a.Required ∧
      (a.Read = true → b.Read = true)

/-- The invariant of the drain loop: the worklist's first entry has path
`hp`, entry paths are pairwise distinct, and every entry path belongs to the
finite allowance `A`. -/
def InvP (A : List Str) (hp : Str) (files : List ConfigFile) : Prop :=
  (pathsOf files).head? = some hp ∧ (pathsOf files).Nodup ∧
    ∀ x ∈ pathsOf files, x ∈ A

/-- The fresh parser state handed to each file, over an empty Store and an
empty worklist. -/
def st0 : RState := { sec := [], opt := [], store := ⟨[]⟩, files := [] }

/-- A concrete two-file filesystem forming an include cycle: `/a` includes
`/b` and `/b` includes `/a`. -/
def wFs : Fs :=
  [(mkStr "/a", [mkStr "#include /b"]), (mkStr "/b", [mkStr "#include /a"])]

/-- A concrete initial worklist holding the required root `/a`. -/
def wFiles : List ConfigFile := [{ Path := mkStr "/a", Required := true, Read := false }]

theorem any_path_eq (l : List ConfigFile) (x : Str) :
    (l.any (fun f => f.Path = x)) = true ↔ x ∈ pathsOf l := by
  rw [List.any_eq_true]
  simp only [decide_eq_true_eq]
  unfold pathsOf
  rw [List.mem_map]

/-! ## Helper lemmas about `pushFile` -/

theorem pushFile_spec (cwd : Str) (list : List ConfigFile) (path : Str) (required : Bool) :
    pushFile cwd list path required =
      (let target :=
        if isAbs path then path
        else
          match list with
          | [] => fAbs cwd path
          | f0 :: _ => fAbs cwd (joinP (dirP f0.Path) path)
      if target ∈ pathsOf list then list
      else list ++ [{ Path := target, Required := required, Read := false }]) := by
  have key : ∀ (l : List ConfigFile) (x : Str),
      ((l.any (fun f => f.Path = x)) = true) = (x ∈ pathsOf l) :=
    fun l x => propext (any_path_eq l x)
  cases list with
  | nil => simp only [pushFile, key]
  | cons f0 t => simp only [pushFile, key]

theorem pathsOf_append (l t : List ConfigFile) : pathsOf (l ++ t) = pathsOf l ++ pathsOf t :=
  List.map_append _ _ _

/-- C8: for every path handed to `pushFile`, a non-absolute path is resolved
against the directory of the worklist's first (root) entry when the worklist
is non-empty, against the working directory when it is empty, and an absolute
path is used as-is; the resolved path is then deduplicated against the
worklist and otherwise appended as a new unread entry. -/
theorem pushFile_path_resolution (cwd : Str) (list : List ConfigFile) (path : Str)
    (required : Bool) :
    pushFile cwd list path required =
      (let target :=
        if isAbs path then path
        else
          match list with
          | [] => fAbs cwd path
          | f0 :: _ => fAbs cwd (joinP (dirP f0.Path) path)
      if target ∈ pathsOf list then list
      else list ++ [{ Path := target, Required := required, Read := false }]) :=
  pushFile_spec cwd list path required

/-- C1: enqueuing a path whose canonical absolute form already occurs in the
worklist leaves the worklist unchanged; consequently, on a non-empty worklist
(the root entry fixed), pushing the same textual path a second time — with
either required flag — is a no-op. -/
theorem pushFile_duplicate_is_noop :
    (∀ (cwd : Str) (list : List ConfigFile) (path : Str) (required : Bool),
      (if isAbs path then path
       else
         match list with
         | [] => fAbs cwd path
         | f0 :: _ => fAbs cwd (joinP (dirP f0.Path) path)) ∈ pathsOf list →
      pushFile cwd list path required = list) ∧
    (∀ (cwd : Str) (f0 : ConfigFile) (t : List ConfigFile) (path : Str) (r r' : Bool),
      pushFile cwd (pushFile cwd (f0 :: t) path r) path r' =
        pushFile cwd (f0 :: t) path r) := by
  constructor
  · intro cwd list path required hmem
    cases list with
    | nil => simp [pathsOf] at hmem
    | cons f0 t =>
      simp only [pushFile_spec]
      rw [if_pos hmem]
  · intro cwd f0 t path r r'
    by_cases hm : (if isAbs path then path else fAbs cwd (joinP (dirP f0.Path) path))
        ∈ pathsOf (f0 :: t)
    · rw [pushFile_spec cwd (f0 :: t) path r, if_pos hm,
        pushFile_spec cwd (f0 :: t) path r', if_pos hm]
    · rw [pushFile_spec cwd (f0 :: t) path r, if_neg hm]
      rw [List.cons_append, pushFile_spec]
      have hmem2 : (if isAbs path then path else fAbs cwd (joinP (dirP f0.Path) path))
          ∈ pathsOf (f0 :: (t ++
            [{ Path := if isAbs path then path else fAbs cwd (joinP (dirP f0.Path) path),
               Required := r, Read := false }])) := by
        simp [pathsOf]
      rw [if_pos hmem2]

/-- Witness for C1 at concrete inputs: a second enqueue of a path already in
the list (reached through the root's directory) is dropped, and a double push
of the same relative path is idempotent. -/
theorem pushFile_duplicate_is_noop_w :
    pushFile (mkStr "/w") [{ Path := mkStr "/w/a.cfg", Required := true, Read := false }]
        (mkStr "a.cfg") false
      = [{ Path := mkStr "/w/a.cfg", Required := true, Read := false }] ∧
    pushFile (mkStr "/w")
        (pushFile (mkStr "/w") [{ Path := mkStr "/w/r.cfg", Required := true, Read := false }]
          (mkStr "b.cfg") false) (mkStr "b.cfg") true
      = pushFile (mkStr "/w") [{ Path := mkStr "/w/r.cfg", Required := true, Read := false }]
          (mkStr "b.cfg") false :=
  ⟨pushFile_duplicate_is_noop.1 _ _ _ _ (by decide),
   pushFile_duplicate_is_noop.2 _ _ _ _ _ _⟩

/-- C4, the code's actual behavior at the claim's scenario: with `/a.cfg`
already listed and the glob expanding to `/a.cfg, /b.cfg`, the candidate loop
returns upon meeting the duplicate `/a.cfg`, so the later candidate `/b.cfg`
is never appended (the source's `return nil` exits `pushFile`, it does not
skip the one candidate). -/
theorem pushFileG_glob_duplicate_stops_loop :
    pushFileG [] (fun _ => [mkStr "/a.cfg", mkStr "/b.cfg"])
        [{ Path := mkStr "/a.cfg", Read := false }] (mkStr "/*.cfg")
      = [{ Path := mkStr "/a.cfg", Read := false }] ∧
    mkStr "/b.cfg" ∉
      (pushFileG [] (fun _ => [mkStr "/a.cfg", mkStr "/b.cfg"])
        [{ Path := mkStr "/a.cfg", Read := false }] (mkStr "/*.cfg")).map (·.Path) := by
  constructor
  · decide
  · decide

/-- Helper: the shape of `processCleanLine` on a line that reaches the
default (option-assignment) branch. -/
theorem processCleanLine_default (cwd : Str) (st : RState) (c : Char) (rest : Str)
    (h1 : c ≠ ';') (h2 : c ≠ '#')
    (h3 : ¬(c = '[' ∧ (c :: rest).getLast? = some ']'))
    (h4 : ¬(st.sec ≠ [] ∧ st.opt ≠ [] ∧ (c = ' ' ∨ c = '\t'))) :
    processCleanLine cwd st (c :: rest) =
      (if 0 < indexAny (c :: rest) ∧ c ≠ ' ' ∧ c ≠ '\t' then
        .ok { st with
          opt := trimSpace ((c :: rest).take (indexAny (c :: rest)).toNat),
          store := st.store.AddOption st.sec
            (trimSpace ((c :: rest).take (indexAny (c :: rest)).toNat))
            (trimSpace ((c :: rest).drop ((indexAny (c :: rest)).toNat + 1))) }
      else .error (.parseFail (parseMsg (c :: rest)))) := by
  simp only [processCleanLine]
  rw [if_neg h1, if_neg h2, if_neg h3, if_neg h4]

/-- C5 (amended): a line that falls through to the option-assignment case
fails with the syntax error carrying the line's text exactly when it has no
`=`/`:` separator, its first separator sits at index `0`, or its first
character is a space or tab; otherwise the text before the first separator,
trimmed, is stored as the current option with the trimmed text after it. -/
theorem parse_default_case (cwd : Str) (st : RState) (c : Char) (rest : Str)
    (h1 : c ≠ ';') (h2 : c ≠ '#')
    (h3 : ¬(c = '[' ∧ (c :: rest).getLast? = some ']'))
    (h4 : ¬(st.sec ≠ [] ∧ st.opt ≠ [] ∧ (c = ' ' ∨ c = '\t'))) :
    (processCleanLine cwd st (c :: rest) = .error (.parseFail (parseMsg (c :: rest))) ↔
      (indexAny (c :: rest) ≤ 0 ∨ c = ' ' ∨ c = '\t')) ∧
    ((0 < indexAny (c :: rest) ∧ c ≠ ' ' ∧ c ≠ '\t') →
      processCleanLine cwd st (c :: rest) = .ok { st with
        opt := trimSpace ((c :: rest).take (indexAny (c :: rest)).toNat),
        store := st.store.AddOption st.sec
          (trimSpace ((c :: rest).take (indexAny (c :: rest)).toNat))
          (trimSpace ((c :: rest).drop ((indexAny (c :: rest)).toNat + 1))) }) := by
  have e := processCleanLine_default cwd st c rest h1 h2 h3 h4
  constructor
  · by_cases hd : 0 < indexAny (c :: rest) ∧ c ≠ ' ' ∧ c ≠ '\t'
    · rw [e, if_pos hd]
      constructor
      · intro hcontra; exact absurd hcontra (by simp)
      · intro hor
        exfalso
        rcases hor with h | h | h
        · exact absurd hd.1 (not_lt.mpr h)
        · exact hd.2.1 h
        · exact hd.2.2 h
    · rw [e, if_neg hd]
      simp only [ne_eq, not_and_or, not_lt, not_not] at hd
      exact ⟨fun _ => hd, fun _ => rfl⟩
  · intro hd
    rw [e, if_pos hd]

/-- Counterexample to C5 as stated, in three parts.  First, `=x` contains a
separator, does not begin with whitespace, and no option is open in the fresh
state, yet the parser rejects it (separator at index 0).  Second, `  c=d`
begins with whitespace while an option IS open (only no section), contains a
separator, and is still rejected.  Third, a line beginning with the
whitespace character `\v` (vertical tab, which is not space or tab) with no
open option and a separator present is accepted, not rejected.  So the
claimed "exactly when" fails in both directions. -/
theorem parse_default_case_cx :
    (indexAny (mkStr "=x") ≠ -1 ∧
      (mkStr "=x").head? ≠ some ' ' ∧ (mkStr "=x").head? ≠ some '\t' ∧
      st0.opt = [] ∧
      processCleanLine [] st0 (mkStr "=x") = .error (.parseFail (parseMsg (mkStr "=x")))) ∧
    (indexAny (mkStr "  c=d") ≠ -1 ∧
      ({ sec := [], opt := mkStr "a", store := ⟨[]⟩, files := [] } : RState).opt ≠ [] ∧
      processCleanLine [] { sec := [], opt := mkStr "a", store := ⟨[]⟩, files := [] }
        (mkStr "  c=d") = .error (.parseFail (parseMsg (mkStr "  c=d")))) ∧
    (isSpaceGo '\x0B' = true ∧ st0.opt = [] ∧
      processCleanLine [] st0 (mkStr "\x0Ba=b") =
        .ok { st0 with
          opt := mkStr "a",
          store := st0.store.AddOption [] (mkStr "a") (mkStr "b") }) :=
  ⟨⟨by decide, by decide, by decide, rfl, by decide⟩,
   ⟨by decide, by decide, by decide⟩,
   ⟨by decide, rfl, by decide⟩⟩

/-- Witness for C5 at a concrete input: `justsomewords` has no separator and
is rejected with the error naming the line. -/
theorem parse_default_case_w :
    processCleanLine [] st0 ('j' :: mkStr "ustsomewords") =
      .error (.parseFail (parseMsg ('j' :: mkStr "ustsomewords"))) :=
  (parse_default_case [] st0 'j' (mkStr "ustsomewords")
    (by decide) (by decide) (by decide) (by decide)).1.mpr (by decide)

/-- C10: a line whose first character is already `=` or `:` (separator at
index 0) is rejected with the syntax error although a separator is present,
because the option branch requires a strictly positive separator index. -/
theorem sep_at_index_zero_rejected (cwd : Str) (st : RState) (c : Char) (rest : Str)
    (hc : c = '=' ∨ c = ':') :
    processCleanLine cwd st (c :: rest) = .error (.parseFail (parseMsg (c :: rest))) := by
  have h1 : c ≠ ';' := by rcases hc with h | h <;> subst h <;> decide
  have h2 : c ≠ '#' := by rcases hc with h | h <;> subst h <;> decide
  have h3 : ¬(c = '[' ∧ (c :: rest).getLast? = some ']') := by
    rintro ⟨hl, -⟩; rcases hc with h | h <;> subst h <;> exact absurd hl (by decide)
  have h4 : ¬(st.sec ≠ [] ∧ st.opt ≠ [] ∧ (c = ' ' ∨ c = '\t')) := by
    rintro ⟨-, -, hsp⟩
    rcases hc with h | h <;> subst h <;> rcases hsp with h' | h' <;> exact absurd h' (by decide)
  have h0 : indexAny (c :: rest) = 0 := by simp only [indexAny, if_pos hc]
  rw [processCleanLine_default cwd st c rest h1 h2 h3 h4, if_neg]
  rintro ⟨hlt, -⟩
  rw [h0] at hlt
  exact lt_irrefl 0 hlt

/-- Witness for C10 at a concrete input: `:x` is rejected. -/
theorem sep_at_index_zero_rejected_w :
    processCleanLine [] st0 (':' :: mkStr "x") =
      .error (.parseFail (parseMsg (':' :: mkStr "x"))) :=
  sep_at_index_zero_rejected [] st0 ':' (mkStr "x") (Or.inr rfl)

/-- C7: a stripped-and-right-trimmed line that starts with `[` and ends with
`]` sets the current section to the trimmed bracket interior, resets the
current-option tracker to empty and calls `AddSection` with that name; and
`AddSection` is idempotent, so re-declaring an existing section changes
nothing and is no error. -/
theorem section_header_line :
    (∀ (cwd : Str) (st : RState) (mid : Str),
      processCleanLine cwd st ('[' :: mid ++ [']']) =
        .ok { st with
          opt := [], sec := trimSpace mid,
          store := st.store.AddSection (trimSpace mid) }) ∧
    (∀ (c : Config) (n : Str), (c.AddSection n).AddSection n = c.AddSection n) := by
  constructor
  · intro cwd st mid
    rw [List.cons_append]
    simp only [processCleanLine]
    rw [if_neg (by decide : ¬('[' = ';')), if_neg (by decide : ¬('[' = '#'))]
    rw [if_pos ?side]
    case side =>
      exact ⟨by simp, by rw [← List.cons_append, List.getLast?_concat]⟩
    simp only [List.drop_succ_cons, List.drop_zero, List.dropLast_concat]
  · intro c n
    have key : ∀ (d : Config), d.data.any (fun p => p.1 = n) = true → d.AddSection n = d := by
      intro d h
      unfold Config.AddSection
      rw [if_pos h]
    by_cases h : c.data.any (fun p => p.1 = n) = true
    · rw [key c h, key c h]
    · have e : c.AddSection n = ⟨c.data ++ [(n, [])]⟩ := by
        unfold Config.AddSection
        rw [if_neg h]
      rw [e, key _ (by simp)]

/-- Counterexample to C6 as stated: parsing exactly the two lines
`foo: bar` and `  baz` from the fresh state fails — with no section declared,
the indented line is an orphan continuation, not an accumulation. -/
theorem continuation_without_section_cx :
    readLines [] st0 [mkStr "foo: bar", mkStr "  baz"]
      = .error (.parseFail (parseMsg (mkStr "  baz"))) := by decide

/-- C6 (amended): inside a declared section (here after a `[s]` header),
`foo: bar` followed by the indented `  baz` yields option `foo` whose raw
value is the previous Store value, a newline, then the continuation line's
trimmed text: `bar\nbaz`. -/
theorem continuation_concat_in_section :
    ∃ st' : RState,
      readLines [] st0 [mkStr "[s]", mkStr "foo: bar", mkStr "  baz"] = .ok st' ∧
      st'.store.RawString (mkStr "s") (mkStr "foo") = some (mkStr "bar" ++ '\n' :: mkStr "baz") ∧
      st'.opt = mkStr "foo" ∧ st'.sec = mkStr "s" := by
  refine ⟨_, rfl, ?_, ?_, ?_⟩ <;> decide

/-- C3: when opening a worklist entry's file fails (the path is not in the
filesystem), `_readFile` aborts with the open error if the entry is required
(`#require`d or the root), and otherwise returns with no error and the Store
and worklist untouched. -/
theorem readFile_open_failure (cwd : Str) (fs : Fs) (fname : Str) (require : Bool)
    (store : Config) (files : List ConfigFile) (h : fsLookup fs fname = none) :
    _readFile cwd fs fname require store files =
      if require then .error (.openFail fname) else .ok (store, files) := by
  unfold _readFile
  rw [h]

/-- Witness for C3 at concrete inputs: a missing required file is a fatal
open error; a missing optional file leaves Store and worklist unchanged. -/
theorem readFile_open_failure_w :
    _readFile [] [] (mkStr "/missing.cfg") true ⟨[]⟩ [] =
      .error (.openFail (mkStr "/missing.cfg")) ∧
    _readFile [] [] (mkStr "/missing.cfg") false ⟨[]⟩ [] = .ok (⟨[]⟩, []) :=
  ⟨(readFile_open_failure [] [] (mkStr "/missing.cfg") true ⟨[]⟩ [] rfl).trans rfl,
   (readFile_open_failure [] [] (mkStr "/missing.cfg") false ⟨[]⟩ [] rfl).trans rfl⟩

/-! ## Worklist bookkeeping lemmas -/

theorem pushFile_cases (cwd : Str) (l : List ConfigFile) (p : Str) (r : Bool) :
    ∃ x, pushFile cwd l p r =
      (if (l.any (fun f => f.Path = x)) = true then l
       else l ++ [{ Path := x, Required := r, Read := false }]) :=
  ⟨_, rfl⟩

theorem pushFile_extends (cwd : Str) (l : List ConfigFile) (p : Str) (r : Bool) :
    ∃ t, pushFile cwd l p r = l ++ t := by
  obtain ⟨x, hx⟩ := pushFile_cases cwd l p r
  rw [hx]
  split
  · exact ⟨[], (List.append_nil _).symm⟩
  · exact ⟨_, rfl⟩

theorem pushFile_nodup (cwd : Str) (l : List ConfigFile) (p : Str) (r : Bool)
    (h : (pathsOf l).Nodup) : (pathsOf (pushFile cwd l p r)).Nodup := by
  obtain ⟨x, hx⟩ := pushFile_cases cwd l p r
  rw [hx]
  split
  · exact h
  · rename_i hno
    rw [pathsOf_append, List.nodup_append]
    refine ⟨h, List.nodup_singleton _, ?_⟩
    intro y hy hy1
    simp only [pathsOf, List.map_cons, List.map_nil, List.mem_singleton] at hy1
    subst hy1
    exact hno ((any_path_eq _ _).mpr hy)

theorem readCount_append (l t : List ConfigFile) :
    readCount (l ++ t) = readCount l + readCount t :=
  List.countP_append _ _ _

theorem length_setRead (l : List ConfigFile) (k : Nat) : (setRead l k).length = l.length := by
  induction l generalizing k with
  | nil => rfl
  | cons a t ih =>
    cases k with
    | zero => rfl
    | succ k => simp [setRead, ih]

theorem pathsOf_setRead (l : List ConfigFile) (k : Nat) : pathsOf (setRead l k) = pathsOf l := by
  induction l generalizing k with
  | nil => rfl
  | cons a t ih =>
    cases k with
    | zero => rfl
    | succ k => simp [setRead, pathsOf, pathsOf] at ih ⊢; exact ih k

theorem get?_setRead_self (l : List ConfigFile) (k : Nat) (f : ConfigFile)
    (h : l.get? k = some f) : (setRead l k).get? k = some { f with Read := true } := by
  induction l generalizing k with
  | nil => simp at h
  | cons a t ih =>
    cases k with
    | zero => simp at h; subst h; rfl
    | succ k => simp only [List.get?] at h ⊢; exact ih k h

theorem get?_setRead_ne (l : List ConfigFile) (k i : Nat) (h : i ≠ k) :
    (setRead l k).get? i = l.get? i := by
  induction l generalizing k i with
  | nil => rfl
  | cons a t ih =>
    cases k with
    | zero =>
      cases i with
      | zero => exact absurd rfl h
      | succ i => rfl
    | succ k =>
      cases i with
      | zero => rfl
      | succ i => simp only [setRead, List.get?]; exact ih k i (fun he => h (by rw [he]))

theorem readCount_setRead (l : List ConfigFile) (k : Nat) (f : ConfigFile)
    (h : l.get? k = some f) (hr : f.Read = false) :
    readCount (setRead l k) = readCount l + 1 := by
  induction l generalizing k with
  | nil => simp at h
  | cons a t ih =>
    cases k with
    | zero =>
      simp only [List.get?] at h
      injection h with h
      subst h
      simp [setRead, readCount, List.countP_cons, hr]
    | succ k =>
      simp only [List.get?] at h
      have := ih k h
      simp only [setRead, readCount, List.countP_cons] at this ⊢
      omega

theorem FilePres_refl (l : List ConfigFile) : FilePres l l :=
  ⟨le_refl _, fun _ a h => ⟨a, h, rfl, rfl, fun hr => hr⟩⟩

theorem FilePres_trans (l1 l2 l3 : List ConfigFile) (h1 : FilePres l1 l2)
    (h2 : FilePres l2 l3) : FilePres l1 l3 := by
  refine ⟨le_trans h1.1 h2.1, fun i a ha => ?_⟩
  obtain ⟨b, hb, hbp, hbr, hbread⟩ := h1.2 i a ha
  obtain ⟨c, hc, hcp, hcr, hcread⟩ := h2.2 i b hb
  exact ⟨c, hc, hcp.trans hbp, hcr.trans hbr, fun hr => hcread (hbread hr)⟩

theorem FilePres_append (l t : List ConfigFile) : FilePres l (l ++ t) := by
  refine ⟨by simp, fun i a ha => ?_⟩
  have hi : i < l.length := by
    by_contra hge
    rw [List.get?_eq_none.mpr (le_of_not_lt hge)] at ha
    cases ha
  exact ⟨a, by rw [List.get?_append hi]; exact ha, rfl, rfl, fun hr => hr⟩

theorem FilePres_setRead (l : List ConfigFile) (k : Nat) : FilePres l (setRead l k) := by
  refine ⟨by rw [length_setRead], fun i a ha => ?_⟩
  by_cases hik : i = k
  · subst hik
    exact ⟨{ a with Read := true }, get?_setRead_self l i a ha, rfl, rfl, fun _ => rfl⟩
  · exact ⟨a, by rw [get?_setRead_ne l k i hik]; exact ha, rfl, rfl, fun hr => hr⟩

/-! ## What one parsed line does to the worklist -/

theorem matchDirective_head (k0 : Char) (ks : Str) (c : Char) (t : Str) (hc : c ≠ k0) :
    matchDirective (k0 :: ks) (c :: t) = none := by
  simp only [matchDirective, dropKw]
  rw [if_neg (fun h => hc h.symm)]

theorem cleanLineDirective_ne_hash (c : Char) (t : Str) (hc : c ≠ '#') :
    cleanLineDirective (c :: t) = none := by
  unfold cleanLineDirective
  have hi : matchDirective kwInclude (c :: t) = none := matchDirective_head '#' _ c t hc
  have hr : matchDirective kwRequire (c :: t) = none := matchDirective_head '#' _ c t hc
  rw [hi, hr]

theorem processCleanLine_files (cwd : Str) (st : RState) (l : Str) (st' : RState)
    (h : processCleanLine cwd st l = .ok st') :
    st'.files =
      (match cleanLineDirective l with
       | none => st.files
       | some pr => pushFile cwd st.files pr.1 pr.2) := by
  cases l with
  | nil =>
    simp only [processCleanLine] at h
    injection h with h
    subst h
    rfl
  | cons c t =>
    by_cases h1 : c = ';'
    · simp only [processCleanLine, if_pos h1] at h
      injection h with h
      subst h
      rw [cleanLineDirective_ne_hash c t (by rw [h1]; decide)]
    · by_cases h2 : c = '#'
      · simp only [processCleanLine, if_neg h1, if_pos h2] at h
        unfold cleanLineDirective
        split at h
        · injection h with h
          subst h
          rfl
        · split at h
          · injection h with h
            subst h
            rfl
          · injection h with h
            subst h
            rfl
      · rw [cleanLineDirective_ne_hash c t h2]
        simp only [processCleanLine, if_neg h1, if_neg h2] at h
        by_cases h3 : c = '[' ∧ (c :: t).getLast? = some ']'
        · rw [if_pos h3] at h
          injection h with h
          subst h
          rfl
        · rw [if_neg h3] at h
          by_cases h4 : st.sec ≠ [] ∧ st.opt ≠ [] ∧ (c = ' ' ∨ c = '\t')
          · rw [if_pos h4] at h
            injection h with h
            subst h
            rfl
          · rw [if_neg h4] at h
            split at h
            · injection h with h
              subst h
              rfl
            · cases h

theorem readLines_ext (cwd : Str) :
    ∀ (lines : List Str) (st st' : RState),
      readLines cwd st lines = .ok st' → ∃ t, st'.files = st.files ++ t := by
  intro lines
  induction lines with
  | nil =>
    intro st st' h
    simp only [readLines] at h
    injection h with h
    subst h
    exact ⟨[], by simp⟩
  | cons raw rest ih =>
    intro st st' h
    simp only [readLines] at h
    cases hpl : processLine cwd st raw with
    | error e => rw [hpl] at h; cases h
    | ok st1 =>
      rw [hpl] at h
      obtain ⟨t2, ht2⟩ := ih st1 st' h
      have h1 := processCleanLine_files cwd st (trimRight (stripComments raw)) st1 hpl
      cases hld : cleanLineDirective (trimRight (stripComments raw)) with
      | none =>
        rw [hld] at h1
        have h1' : st1.files = st.files := h1
        exact ⟨t2, by rw [ht2, h1']⟩
      | some pr =>
        rw [hld] at h1
        have h1' : st1.files = pushFile cwd st.files pr.1 pr.2 := h1
        obtain ⟨t1, ht1⟩ := pushFile_extends cwd st.files pr.1 pr.2
        exact ⟨t1 ++ t2, by rw [ht2, h1', ht1, List.append_assoc]⟩

theorem readFile_ext (cwd : Str) (fs : Fs) (fname : Str) (req : Bool) (store : Config)
    (files : List ConfigFile) (store' : Config) (files' : List ConfigFile)
    (h : _readFile cwd fs fname req store files = .ok (store', files')) :
    ∃ t, files' = files ++ t := by
  unfold _readFile at h
  split at h
  · split at h
    · cases h
    · injection h with h
      rw [Prod.mk.injEq] at h
      exact ⟨[], by rw [← h.2]; simp⟩
  · rename_i lines hlk
    split at h
    · cases h
    · rename_i st1 hr
      injection h with h
      rw [Prod.mk.injEq] at h
      obtain ⟨t, ht⟩ := readLines_ext cwd lines _ st1 hr
      exact ⟨t, by rw [← h.2]; simpa using ht⟩

theorem passGo_pres (cwd : Str) (fs : Fs) :
    ∀ (m k : Nat) (store : Config) (files : List ConfigFile) (hu : Bool)
      (store' : Config) (files' : List ConfigFile) (hu' : Bool),
      passGo cwd fs m k store files hu = .ok (store', files', hu') →
      FilePres files files' := by
  intro m
  induction m with
  | zero =>
    intro k store files hu store' files' hu' h
    simp only [passGo] at h
    injection h with h
    injection h with ha hb
    injection hb with hb1 hb2
    subst hb1
    exact FilePres_refl _
  | succ m ih =>
    intro k store files hu store' files' hu' h
    simp only [passGo] at h
    split at h
    · exact ih _ _ _ _ _ _ _ h
    · split at h
      · exact ih _ _ _ _ _ _ _ h
      · split at h
        · cases h
        · rename_i f hg hread hmatch s1 f1 hrf
          obtain ⟨t, ht⟩ := readFile_ext cwd fs f.Path f.Required store files s1 f1 hrf
          have hp1 : FilePres files f1 := ht ▸ FilePres_append files t
          have hp2 : FilePres f1 (setRead f1 k) := FilePres_setRead f1 k
          exact FilePres_trans _ _ _ (FilePres_trans _ _ _ hp1 hp2) (ih _ _ _ _ _ _ _ h)

/-- C9: worklist invariants — `pushFile` keeps entry paths pairwise distinct
(dedup is enforced at insertion), only ever appends (never removes or
reorders), and a drain pass preserves every existing entry's position, path
and required flag while moving read flags only from `false` to `true`. -/
theorem worklist_invariants :
    (∀ (cwd : Str) (l : List ConfigFile) (p : Str) (r : Bool),
      (pathsOf l).Nodup → (pathsOf (pushFile cwd l p r)).Nodup) ∧
    (∀ (cwd : Str) (l : List ConfigFile) (p : Str) (r : Bool),
      ∃ t, pushFile cwd l p r = l ++ t) ∧
    (∀ (cwd : Str) (fs : Fs) (store : Config) (files : List ConfigFile)
      (store' : Config) (files' : List ConfigFile) (hu' : Bool),
      drainPass cwd fs store files = .ok (store', files', hu') → FilePres files files') :=
  ⟨pushFile_nodup, pushFile_extends,
   fun cwd fs store files store' files' hu' h =>
     passGo_pres cwd fs files.length 0 store files false store' files' hu' h⟩

/-- Witness for C9 at concrete inputs: a push on a duplicate-free list stays
duplicate-free and is an append, and one drain pass over a single optional
missing file preserves the entry while marking it read. -/
theorem worklist_invariants_w :
    (pathsOf (pushFile [] [] (mkStr "/a.cfg") true)).Nodup ∧
    (∃ t, pushFile [] [] (mkStr "/a.cfg") true = [] ++ t) ∧
    FilePres [{ Path := mkStr "/a.cfg", Required := false, Read := false }]
      [{ Path := mkStr "/a.cfg", Required := false, Read := true }] :=
  ⟨worklist_invariants.1 [] [] (mkStr "/a.cfg") true (by decide),
   worklist_invariants.2.1 [] [] (mkStr "/a.cfg") true,
   worklist_invariants.2.2 [] [] ⟨[]⟩ [{ Path := mkStr "/a.cfg", Required := false, Read := false }]
     ⟨[]⟩ [{ Path := mkStr "/a.cfg", Required := false, Read := true }] true (by decide)⟩

/-! ## The drain loop's invariant and termination -/

theorem push_inv (cwd : Str) (A : List Str) (hp : Str) (files : List ConfigFile)
    (p : Str) (r : Bool) (hmem : canonR cwd (dirP hp) p ∈ A)
    (hInv : InvP A hp files) : InvP A hp (pushFile cwd files p r) := by
  obtain ⟨hhead, hnd, hsub⟩ := hInv
  cases files with
  | nil => simp [pathsOf] at hhead
  | cons f0 tl =>
    have hf0 : f0.Path = hp := by simpa [pathsOf] using hhead
    subst hf0
    have hx : pushFile cwd (f0 :: tl) p r =
        (if (canonR cwd (dirP f0.Path) p) ∈ pathsOf (f0 :: tl) then (f0 :: tl)
         else (f0 :: tl) ++
           [{ Path := canonR cwd (dirP f0.Path) p, Required := r, Read := false }]) := by
      rw [pushFile_spec]
      rfl
    rw [hx]
    split
    · exact ⟨hhead, hnd, hsub⟩
    · rename_i hnomem
      refine ⟨?_, ?_, ?_⟩
      · simp [pathsOf]
      · rw [pathsOf_append, List.nodup_append]
        refine ⟨hnd, List.nodup_singleton _, ?_⟩
        intro y hy hy1
        simp only [pathsOf, List.map_cons, List.map_nil, List.mem_singleton] at hy1
        subst hy1
        exact hnomem hy
      · intro x hxm
        rw [pathsOf_append] at hxm
        rcases List.mem_append.mp hxm with hxl | hxr
        · exact hsub x hxl
        · simp only [pathsOf, List.map_cons, List.map_nil, List.mem_singleton] at hxr
          subst hxr
          exact hmem

theorem mem_allDirs (fs : Fs) (pr : Str × List Str) (hpr : pr ∈ fs) (raw : Str)
    (hraw : raw ∈ pr.2) (p : Str) (r : Bool) (hld : lineDirective raw = some (p, r)) :
    p ∈ allDirs fs := by
  unfold allDirs
  rw [List.mem_flatMap]
  refine ⟨pr, hpr, ?_⟩
  rw [List.mem_filterMap]
  exact ⟨raw, hraw, by rw [hld]; rfl⟩

theorem fsLookup_mem (fs : Fs) (fname : Str) (lines : List Str)
    (h : fsLookup fs fname = some lines) : ∃ pr ∈ fs, pr.2 = lines := by
  unfold fsLookup at h
  cases hf : fs.find? (fun pr => pr.1 = fname) with
  | none => rw [hf] at h; cases h
  | some pr =>
    rw [hf] at h
    injection h with h
    exact ⟨pr, List.mem_of_find?_eq_some hf, h⟩

theorem readLines_inv (cwd : Str) (A : List Str) (hp : Str) :
    ∀ (lines : List Str) (st st' : RState),
      (∀ raw ∈ lines, ∀ p r, lineDirective raw = some (p, r) →
        canonR cwd (dirP hp) p ∈ A) →
      InvP A hp st.files →
      readLines cwd st lines = .ok st' →
      InvP A hp st'.files := by
  intro lines
  induction lines with
  | nil =>
    intro st st' _ hInv h
    simp only [readLines] at h
    injection h with h
    subst h
    exact hInv
  | cons raw rest ih =>
    intro st st' hD hInv h
    simp only [readLines] at h
    cases hpl : processLine cwd st raw with
    | error e => rw [hpl] at h; cases h
    | ok st1 =>
      rw [hpl] at h
      have h1 := processCleanLine_files cwd st (trimRight (stripComments raw)) st1 hpl
      have hInv1 : InvP A hp st1.files := by
        cases hld : cleanLineDirective (trimRight (stripComments raw)) with
        | none =>
          rw [hld] at h1
          have h1' : st1.files = st.files := h1
          rw [h1']
          exact hInv
        | some pr =>
          rw [hld] at h1
          have h1' : st1.files = pushFile cwd st.files pr.1 pr.2 := h1
          rw [h1']
          exact push_inv cwd A hp st.files pr.1 pr.2
            (hD raw (List.mem_cons_self raw rest) pr.1 pr.2 hld) hInv
      exact ih st1 st' (fun raw' hraw' => hD raw' (List.mem_cons_of_mem _ hraw')) hInv1 h

theorem readFile_inv (cwd : Str) (fs : Fs) (A : List Str) (hp : Str)
    (hA : ∀ q ∈ allDirs fs, canonR cwd (dirP hp) q ∈ A)
    (fname : Str) (req : Bool) (store : Config) (files : List ConfigFile)
    (store' : Config) (files' : List ConfigFile)
    (hInv : InvP A hp files)
    (h : _readFile cwd fs fname req store files = .ok (store', files')) :
    InvP A hp files' := by
  unfold _readFile at h
  split at h
  · split at h
    · cases h
    · injection h with h
      rw [Prod.mk.injEq] at h
      rw [← h.2]
      exact hInv
  · rename_i lines hlk
    split at h
    · cases h
    · rename_i st1 hr
      injection h with h
      rw [Prod.mk.injEq] at h
      rw [← h.2]
      obtain ⟨pr, hpr, hpr2⟩ := fsLookup_mem fs fname lines hlk
      have hD : ∀ raw ∈ lines, ∀ p r, lineDirective raw = some (p, r) →
          canonR cwd (dirP hp) p ∈ A := by
        intro raw hraw p r hld
        exact hA p (mem_allDirs fs pr hpr raw (hpr2 ▸ hraw) p r hld)
      exact readLines_inv cwd A hp lines
        { sec := [], opt := [], store := store, files := files } st1 hD hInv hr

theorem passGo_inv (cwd : Str) (fs : Fs) (A : List Str) (hp : Str)
    (hA : ∀ q ∈ allDirs fs, canonR cwd (dirP hp) q ∈ A) :
    ∀ (m k : Nat) (store : Config) (files : List ConfigFile) (hu : Bool)
      (store' : Config) (files' : List ConfigFile) (hu' : Bool),
      InvP A hp files →
      passGo cwd fs m k store files hu = .ok (store', files', hu') →
      InvP A hp files' ∧ readCount files ≤ readCount files' ∧
        (hu' = true → hu = true ∨ readCount files < readCount files') := by
  intro m
  induction m with
  | zero =>
    intro k store files hu store' files' hu' hInv h
    simp only [passGo] at h
    injection h with h
    injection h with ha hb
    injection hb with hb1 hb2
    subst hb1
    subst hb2
    exact ⟨hInv, le_refl _, fun hh => Or.inl hh⟩
  | succ m ih =>
    intro k store files hu store' files' hu' hInv h
    simp only [passGo] at h
    split at h
    · exact ih _ _ _ _ _ _ _ hInv h
    · split at h
      · exact ih _ _ _ _ _ _ _ hInv h
      · split at h
        · cases h
        · rename_i f hg hread hmatch s1 f1 hrf
          obtain ⟨t, ht⟩ := readFile_ext cwd fs f.Path f.Required store files s1 f1 hrf
          have hInv1 : InvP A hp f1 :=
            readFile_inv cwd fs A hp hA f.Path f.Required store files s1 f1 hInv hrf
          have hInv2 : InvP A hp (setRead f1 k) := by
            obtain ⟨hh, hn, hs⟩ := hInv1
            refine ⟨?_, ?_, ?_⟩
            · rw [pathsOf_setRead]; exact hh
            · rw [pathsOf_setRead]; exact hn
            · rw [pathsOf_setRead]; exact hs
          have hfr : f.Read = false := by
            cases hb : f.Read with
            | false => rfl
            | true => exact absurd hb hread
          have hklt : k < files.length := by
            by_contra hge
            rw [List.get?_eq_none.mpr (le_of_not_lt hge)] at hg
            cases hg
          have hk1 : f1.get? k = some f := by
            rw [ht, List.get?_append hklt]
            exact hg
          have hrc1 : readCount (setRead f1 k) = readCount f1 + 1 :=
            readCount_setRead f1 k f hk1 hfr
          have hrc2 : readCount files ≤ readCount f1 := by
            rw [ht, readCount_append]
            omega
          obtain ⟨hI, hle, -⟩ := ih _ _ _ _ _ _ _ hInv2 h
          exact ⟨hI, by omega, fun _ => Or.inr (by omega)⟩

theorem readCount_le_bound (A : List Str) (hp : Str) (files : List ConfigFile)
    (hInv : InvP A hp files) : readCount files ≤ A.length := by
  obtain ⟨-, hnd, hsub⟩ := hInv
  have h1 : readCount files ≤ files.length := List.countP_le_length _
  have h2 : files.length = (pathsOf files).length := (List.length_map _ _).symm
  have h3 : (pathsOf files).length ≤ A.length :=
    (List.subperm_of_subset hnd (fun x hx => hsub x hx)).length_le
  omega

theorem readFuel_done (cwd : Str) (fs : Fs) (A : List Str) (hp : Str)
    (hA : ∀ q ∈ allDirs fs, canonR cwd (dirP hp) q ∈ A) :
    ∀ (N : Nat) (store : Config) (files : List ConfigFile),
      InvP A hp files → A.length - readCount files < N →
      _readFuel cwd fs N store files ≠ .ok none := by
  intro N
  induction N with
  | zero =>
    intro store files _ hlt
    exact (Nat.not_lt_zero _ hlt).elim
  | succ n ihn =>
    intro store files hInv hlt
    simp only [_readFuel]
    split
    · simp
    · rename_i store1 files1 hu1 hd
      obtain ⟨hI, hle, hhu⟩ :=
        passGo_inv cwd fs A hp hA files.length 0 store files false store1 files1 hu1 hInv hd
      cases hu1 with
      | false => simp
      | true =>
        have hstrict : readCount files < readCount files1 := by
          rcases hhu rfl with hfalse | hs
          · cases hfalse
          · exact hs
        have hbound : readCount files1 ≤ A.length := readCount_le_bound A hp files1 hI
        have hlt' : A.length - readCount files1 < n := by omega
        simpa using ihn store1 files1 hI hlt'

theorem readFuel_mono (cwd : Str) (fs : Fs) :
    ∀ (N M : Nat) (store : Config) (files : List ConfigFile),
      N ≤ M → _readFuel cwd fs N store files ≠ .ok none →
      _readFuel cwd fs M store files = _readFuel cwd fs N store files := by
  intro N
  induction N with
  | zero =>
    intro M store files _ hne
    exact absurd rfl hne
  | succ n ihn =>
    intro M store files hle hne
    cases M with
    | zero => exact absurd hle (by omega)
    | succ m =>
      simp only [_readFuel] at hne ⊢
      cases hd : drainPass cwd fs store files with
      | error e => rfl
      | ok res =>
        obtain ⟨s1, f1, hu1⟩ := res
        rw [hd] at hne
        cases hu1 with
        | false => rfl
        | true =>
          have hne' : _readFuel cwd fs n s1 f1 ≠ .ok none := hne
          exact ihn m s1 f1 (by omega) hne'

/-- C2: the load terminates on every filesystem — in particular on cyclic
include graphs such as a file including itself or `A → B → A` — because an
enqueue of an already-listed canonical path is a no-op: from any worklist
with pairwise distinct paths there is a fuel bound past which the drain loop
has reached its fixed point (a pass with nothing unread) or aborted with an
error, and more fuel never changes the outcome. -/
theorem load_terminates (cwd : Str) (fs : Fs) (store : Config) (files : List ConfigFile)
    (hnd : (pathsOf files).Nodup) :
    ∃ N, _readFuel cwd fs N store files ≠ .ok none ∧
      ∀ M, N ≤ M → _readFuel cwd fs M store files = _readFuel cwd fs N store files := by
  cases files with
  | nil =>
    have h1 : _readFuel cwd fs 1 store [] = .ok (some (store, [])) := rfl
    refine ⟨1, by rw [h1]; simp, ?_⟩
    intro M hM
    exact readFuel_mono cwd fs 1 M store [] hM (by rw [h1]; simp)
  | cons f0 tl =>
    have hA : ∀ q ∈ allDirs fs, canonR cwd (dirP f0.Path) q ∈
        (pathsOf (f0 :: tl) ++ (allDirs fs).map (canonR cwd (dirP f0.Path))) := by
      intro q hq
      exact List.mem_append_right _ (List.mem_map_of_mem _ hq)
    have hInv : InvP (pathsOf (f0 :: tl) ++ (allDirs fs).map (canonR cwd (dirP f0.Path)))
        f0.Path (f0 :: tl) := by
      refine ⟨?_, hnd, ?_⟩
      · simp [pathsOf]
      · intro x hx
        exact List.mem_append_left _ hx
    have hdone := readFuel_done cwd fs
      (pathsOf (f0 :: tl) ++ (allDirs fs).map (canonR cwd (dirP f0.Path))) f0.Path hA
      ((pathsOf (f0 :: tl) ++ (allDirs fs).map (canonR cwd (dirP f0.Path))).length + 1)
      store (f0 :: tl) hInv (by omega)
    exact ⟨_, hdone, fun M hM => readFuel_mono cwd fs _ M store (f0 :: tl) hM hdone⟩

/-- Witness for C2 at a concrete cyclic input: loading `/a` over the
filesystem where `/a` includes `/b` and `/b` includes `/a` reaches a fixed
point within some fuel bound. -/
theorem load_terminates_w :
    (pathsOf wFiles).Nodup ∧
    ∃ N, _readFuel (mkStr "/") wFs N ⟨[]⟩ wFiles ≠ .ok none ∧
      ∀ M, N ≤ M →
        _readFuel (mkStr "/") wFs M ⟨[]⟩ wFiles = _readFuel (mkStr "/") wFs N ⟨[]⟩ wFiles :=
  ⟨by decide, load_terminates (mkStr "/") wFs ⟨[]⟩ wFiles (by decide)⟩
